import Mathlib

/-!
Verification of the AROMA tensor-algebra core

A shallow embedding, in Lean 4, of the tensor-algebra engine of the AROMA
repository: the sparse assemblers of `aroma/util/sparse.py` and the
`Integrand` family of `aroma/affine/integrands/__init__.py`.

Modelling conventions:

* numpy/scipy floating-point value arrays are modelled as `List ℚ`
  (every operation of this core is a ring operation — add and multiply —
  so exact rational arithmetic reproduces the intended real semantics);
* index arrays are `List ℕ`;
* `np.lexsort` (a stable sort) is modelled by a stable insertion sort;
  none of the properties proved below depend on stability, only on the
  sort being a permutation;
* Python exceptions are modelled by `Except` with an error enumeration
  named after the specification's error taxonomy (`AssertionError` inside
  `contract` and the `KeyError` of an assembler-dictionary miss are both
  classified as `invalidContraction` by the specification;
  `NotImplementedError` in `Integrand.make` is `unsupportedRepresentation`);
* the hierarchical persistence store (HDF5 groups) is modelled by record
  types holding exactly the named datasets and attributes the code writes;
  the comma-joined axis-pattern group names are modelled as the axis lists
  themselves (the rendering of `(1,2)` to a name and its parsing back are
  mutually inverse on the keys that occur).
-/

/-! ## List utilities shared by the assemblers

`np.lexsort`, boolean masks over adjacent elements, `np.nonzero` on a
boolean mask, and `np.add.reduceat`. -/

/-- Stable insertion into a sorted list: `x` is placed before the first
element `y` with `le x y`. -/
def insertSorted (le : α → α → Bool) (x : α) : List α → List α
  | [] => [x]
  | y :: ys => if le x y then x :: y :: ys else y :: insertSorted le x ys

/-- Stable insertion sort; models `np.lexsort`'s stable sorting of indices. -/
def sortBy (le : α → α → Bool) : List α → List α
  | [] => []
  | x :: xs => insertSorted le x (sortBy le xs)

/-- The tail of the adjacent-difference mask: entry `t` is `true` when the
`t`-th element differs from its predecessor (`prev` for the head). -/
def maskFrom [DecidableEq α] (prev : α) : List α → List Bool
  | [] => []
  | k :: rest => decide (k ≠ prev) :: maskFrom k rest

/-- The duplicate-detection mask of `CSRAssembler.__init__` /
`VectorAssembler.__init__`: `np.append(True, keys[1:] != keys[:-1])`. -/
def maskList [DecidableEq α] : List α → List Bool
  | [] => []
  | k :: rest => true :: maskFrom k rest

/-- Models `np.nonzero(mask)`: positions of the `true` entries. -/
def trueIdxs : List Bool → List ℕ
  | [] => []
  | b :: rest =>
      if b then 0 :: (trueIdxs rest).map (· + 1) else (trueIdxs rest).map (· + 1)

/-- Boolean-mask indexing `xs[mask]`. -/
def maskFilter : List α → List Bool → List α
  | [], _ => []
  | _, [] => []
  | x :: xs, b :: bs => if b then x :: maskFilter xs bs else maskFilter xs bs

/-- Models `np.add.reduceat(d, inds)`: for each start offset, the sum of `d` from
that offset up to the next offset (the last segment runs to the end).
The offsets produced by the assemblers are strictly increasing, so the
out-of-order corner case of `np.add.reduceat` never arises. -/
def reduceat (d : List ℚ) : List ℕ → List ℚ
  | [] => []
  | [i] => ((d.drop i).sum) :: []
  | i :: j :: rest => ((d.drop i).take (j - i)).sum :: reduceat d (j :: rest)

/-- Reference form of duplicate merging: collapse adjacent equal-key runs of
a key/value list, summing the values of each run.  The mask/`reduceat`
pipeline of the assemblers is proved equal to this function. -/
def collapse [DecidableEq α] : List (α × ℚ) → List (α × ℚ)
  | [] => []
  | (k, v) :: rest =>
      match collapse rest with
      | [] => [(k, v)]
      | (k2, s) :: out =>
          if k = k2 then (k, v + s) :: out else (k, v) :: (k2, s) :: out

/-- Total value stored under a key: the sum of the values of every entry
of the list whose key is `k`.  This is the semantics of a sparse container
holding possibly-duplicated (coordinate, value) entries. -/
def sumKey [DecidableEq α] (l : List (α × ℚ)) (k : α) : ℚ :=
  ((l.filter (fun e => decide (e.1 = k))).map (fun e => e.2)).sum

/-! ## Sparse matrices and assemblers (`aroma/util/sparse.py`) -/

/-- A scipy sparse matrix: a shape and a list of ((row, col), value)
entries; entries with equal coordinates are understood as summed. -/
structure SpMat where
  m : ℕ
  n : ℕ
  entries : List ((ℕ × ℕ) × ℚ)
  deriving DecidableEq, Repr

/-- The numeric entry of a sparse matrix at (r, c). -/
def SpMat.entry (sp : SpMat) (r c : ℕ) : ℚ :=
  sumKey sp.entries (r, c)

/-- Models `CSRAssembler`: the canonical deduplicated coordinate list (`row`,
`col`), the sort permutation (`order`) and the duplicate-run start offsets
(`inds`), precomputed once in `__init__`. -/
structure CSRAssembler where
  shape : ℕ × ℕ
  row : List ℕ
  col : List ℕ
  order : List ℕ
  inds : List ℕ
  deriving DecidableEq, Repr

/-- Comparison key of `np.lexsort((row, col))` on (row, col) pairs:
`col` is the primary key, `row` the secondary. -/
def lexColRow (a b : ℕ × ℕ) : Bool :=
  decide (a.2 < b.2 ∨ (a.2 = b.2 ∧ a.1 ≤ b.1))

/-- Models `CSRAssembler.__init__`: sort the coordinates by (col, row), keep the
first element of every duplicate run, and record the permutation and the
run start offsets. -/
def mkCSR (shape : ℕ × ℕ) (row col : List ℕ) : CSRAssembler :=
  let n := row.length
  let order := sortBy
    (fun p q => lexColRow (row.getD p 0, col.getD p 0) (row.getD q 0, col.getD q 0))
    (List.range n)
  let srow := order.map (fun p => row.getD p 0)
  let scol := order.map (fun p => col.getD p 0)
  let keys := srow.zip scol
  let msk := maskList keys
  { shape := shape
    row := (maskFilter keys msk).map (fun e => e.1)
    col := (maskFilter keys msk).map (fun e => e.2)
    order := order
    inds := trueIdxs msk }

/-- Models `CSRAssembler.__call__`: reorder the data by the stored permutation,
sum each duplicate run with `reduceat`, and scatter the deduplicated
triples into a sparse matrix (`coo_tocsr` + `csr_matrix`). -/
def CSRAssembler.call (a : CSRAssembler) (data : List ℚ) : SpMat :=
  let sums := reduceat (a.order.map (fun p => data.getD p 0)) a.inds
  { m := a.shape.1, n := a.shape.2, entries := (a.row.zip a.col).zip sums }

/-- Models `VectorAssembler`: the rank-1 analogue of `CSRAssembler`. -/
structure VectorAssembler where
  shape : ℕ
  row : List ℕ
  order : List ℕ
  inds : List ℕ
  deriving DecidableEq, Repr

/-- Models `VectorAssembler.__init__`. -/
def mkVec (shape : ℕ) (ind : List ℕ) : VectorAssembler :=
  let n := ind.length
  let order := sortBy (fun p q => decide (ind.getD p 0 ≤ ind.getD q 0)) (List.range n)
  let sind := order.map (fun p => ind.getD p 0)
  let msk := maskList sind
  { shape := shape
    row := maskFilter sind msk
    order := order
    inds := trueIdxs msk }

/-- Models `VectorAssembler.__call__`: merge duplicate runs, then scatter into a
zero-initialised dense vector (`retval[self.row] = data`; the stored rows
are deduplicated, so the scatter positions are distinct). -/
def VectorAssembler.call (a : VectorAssembler) (data : List ℚ) : List ℚ :=
  let sums := reduceat (a.order.map (fun p => data.getD p 0)) a.inds
  (List.range a.shape).map (fun p => sumKey (a.row.zip sums) p)

/-! ## Error taxonomy (specification §7) -/

/-- The error classes of the specification.  `invalidContraction` models
the `AssertionError` of `ScipyArrayIntegrand.contract`; `keyError` models
the `KeyError` of an unregistered axis-elimination pattern in
`COOTensorIntegrand._contract` (the specification classifies both under
`InvalidContraction`); `unsupportedRepresentation` models the
`NotImplementedError` of `Integrand.make`. -/
inductive AromaError where
  | invalidContraction : AromaError
  | keyError : List ℕ → AromaError
  | unsupportedRepresentation : AromaError
  deriving DecidableEq, Repr

/-! ## COOTensorIntegrand (`aroma/affine/integrands/__init__.py`) -/

/-- An assembler owned by a `COOTensorIntegrand`: the `(1,)` and `(2,)`
patterns hold a `CSRAssembler`, the `(1,2)` pattern a `VectorAssembler`. -/
inductive Assembler where
  | csr : CSRAssembler → Assembler
  | vec : VectorAssembler → Assembler
  deriving DecidableEq, Repr

/-- The unassembled rank-3 sparse tensor: shape, three coordinate arrays,
the value array, and the prebuilt assembler per axis-elimination pattern
(an association list modelling the Python dict). -/
structure COOTensorIntegrand where
  shape : ℕ × ℕ × ℕ
  indices : List ℕ × List ℕ × List ℕ
  data : List ℚ
  assemblers : List (List ℕ × Assembler)
  deriving DecidableEq, Repr

/-- Models `np.max` of a coordinate array (the arrays this is applied to are
nonempty in every actual construction). -/
def npMax (l : List ℕ) : ℕ := l.foldr max 0

/-- Models `COOTensorIntegrand.__init__`: drop the entries whose value is exactly
zero, and build the three assemblers for the supported axis-elimination
patterns `(1,)`, `(2,)` and `(1,2)`. -/
def mkCOO (shape : ℕ × ℕ × ℕ) (i j k : List ℕ) (vals : List ℚ) :
    COOTensorIntegrand :=
  let quads := (i.zip (j.zip (k.zip vals))).filter (fun q => decide (q.2.2.2 ≠ 0))
  let fi := quads.map (fun q => q.1)
  let fj := quads.map (fun q => q.2.1)
  let fk := quads.map (fun q => q.2.2.1)
  let fd := quads.map (fun q => q.2.2.2)
  { shape := shape
    indices := (fi, fj, fk)
    data := fd
    assemblers :=
      [ ([1], .csr (mkCSR (shape.1, shape.2.2) fi fk))
      , ([2], .csr (mkCSR (shape.1, shape.2.1) fi fj))
      , ([1, 2], .vec (mkVec shape.1 fi)) ] }

/-- The index-dtype bit width chosen by `COOTensorIntegrand.__init__`:
`np.int32` when every (zero-filtered) coordinate array has maximum at most
`np.iinfo(np.int32).max`, otherwise `np.int64`. -/
def cooIdxDtype (i j k : List ℕ) (vals : List ℚ) : ℕ :=
  let quads := (i.zip (j.zip (k.zip vals))).filter (fun q => decide (q.2.2.2 ≠ 0))
  let fi := quads.map (fun q => q.1)
  let fj := quads.map (fun q => q.2.1)
  let fk := quads.map (fun q => q.2.2.1)
  if npMax fi ≤ 2 ^ 31 - 1 ∧ npMax fj ≤ 2 ^ 31 - 1 ∧ npMax fk ≤ 2 ^ 31 - 1
    then 32 else 64

/-- The maximum coordinate value occurring in the stored index arrays of a
`COOTensorIntegrand` built from the given construction arguments. -/
def cooMaxCoord (i j k : List ℕ) (vals : List ℚ) : ℕ :=
  let quads := (i.zip (j.zip (k.zip vals))).filter (fun q => decide (q.2.2.2 ≠ 0))
  npMax (quads.map (fun q => q.1) ++ quads.map (fun q => q.2.1)
    ++ quads.map (fun q => q.2.2.1))

/-- Modelled from the spec: "the smallest signed integer type that fits
the maximum coordinate value" — the reference dtype choice the
specification describes, to be compared with `cooIdxDtype`. -/
def smallestSignedWidthSpec (maxCoord : ℕ) : ℕ :=
  if maxCoord ≤ 2 ^ 7 - 1 then 8
  else if maxCoord ≤ 2 ^ 15 - 1 then 16
  else if maxCoord ≤ 2 ^ 31 - 1 then 32
  else 64

/-- A contraction specification for a rank-3 tensor: per axis, either
"no-op" (`none`) or a dense vector. -/
def Spec3 : Type := Option (List ℚ) × Option (List ℚ) × Option (List ℚ)

/-- A contraction specification for a rank-2 tensor. -/
def Spec2 : Type := Option (List ℚ) × Option (List ℚ)

/-- The list of non-trivial (eliminated) axes of a rank-3 contraction
specification, in increasing order. -/
def cooAxes (spec : Spec3) : List ℕ :=
  (if spec.1.isSome then [0] else []) ++
  (if spec.2.1.isSome then [1] else []) ++
  (if spec.2.2.isSome then [2] else [])

/-- Models `data *= c[self.indices[i]]`: per-entry multiplication of the data
array by the contraction vector looked up through a coordinate array. -/
def applyCont (c : List ℚ) (idx : List ℕ) (d : List ℚ) : List ℚ :=
  List.zipWith (fun dv p => dv * c.getD p 0) d idx

/-- The value a `COOTensorIntegrand._contract` call can produce: the
receiver itself, a scalar (all three axes eliminated), an assembled sparse
matrix (one axis eliminated) or an assembled dense vector (axes 1 and 2
eliminated). -/
inductive ContractValue where
  | tensor : COOTensorIntegrand → ContractValue
  | scalar : ℚ → ContractValue
  | matrix : SpMat → ContractValue
  | vector : List ℚ → ContractValue
  deriving DecidableEq, Repr

/-- Models `COOTensorIntegrand._contract`: if every axis is trivial return the
receiver; otherwise weight the data through each non-trivial axis, sum to
a scalar when all three axes are eliminated, and otherwise dispatch to the
assembler registered for exactly the eliminated axis-set (`KeyError` on a
miss). -/
def COOTensorIntegrand.contractRaw (x : COOTensorIntegrand) (spec : Spec3) :
    Except AromaError ContractValue :=
  match spec with
  | (none, none, none) => .ok (.tensor x)
  | _ =>
    let d0 := match spec.1 with
      | none => x.data
      | some c => applyCont c x.indices.1 x.data
    let d1 := match spec.2.1 with
      | none => d0
      | some c => applyCont c x.indices.2.1 d0
    let d2 := match spec.2.2 with
      | none => d1
      | some c => applyCont c x.indices.2.2 d1
    let axes := cooAxes spec
    if axes = [0, 1, 2] then .ok (.scalar d2.sum)
    else
      match (x.assemblers.find? (fun e => decide (e.1 = axes))).map (fun e => e.2) with
      | some (Assembler.csr a) => .ok (.matrix (a.call d2))
      | some (Assembler.vec a) => .ok (.vector (a.call d2))
      | none => .error (.keyError axes)

/-- Models `COOTensorIntegrand.toarray`: flatten axes 1 and 2 to a single column
index (`np.ravel_multi_index`), build the rank-2 sparse matrix (which sums
duplicate coordinates), densify and reshape back to rank 3. -/
def COOTensorIntegrand.toarray (x : COOTensorIntegrand) :
    List (List (List ℚ)) :=
  let flat := (x.indices.1.zip ((x.indices.2.1.zip x.indices.2.2).zip x.data)).map
    (fun e => ((e.1, e.2.1.1 * x.shape.2.2 + e.2.1.2), e.2.2))
  (List.range x.shape.1).map (fun a =>
    (List.range x.shape.2.1).map (fun b =>
      (List.range x.shape.2.2).map (fun c =>
        sumKey flat (a, b * x.shape.2.2 + c))))

/-- The value a `COOTensorIntegrand.get` call can produce: `_contract`'s
value, densified when it is still a rank-3 tensor. -/
inductive GetValue where
  | arr3 : List (List (List ℚ)) → GetValue
  | scalar : ℚ → GetValue
  | matrix : SpMat → GetValue
  | vector : List ℚ → GetValue
  deriving DecidableEq, Repr

/-- Models `COOTensorIntegrand.get`: delegate to `_contract` and densify the
result when no axis was eliminated. -/
def COOTensorIntegrand.get (x : COOTensorIntegrand) (spec : Spec3) :
    Except AromaError GetValue :=
  (x.contractRaw spec).map (fun cv =>
    match cv with
    | .tensor y => .arr3 y.toarray
    | .scalar q => .scalar q
    | .matrix sp => .matrix sp
    | .vector v => .vector v)

/-- Numeric entry of a dense rank-2 nested-list array. -/
def entry2 (A : List (List ℚ)) (i j : ℕ) : ℚ := (A.getD i []).getD j 0

/-- Models `COOTensorIntegrand.project`: for each row of the axis-0 projection,
re-weight the data by that row's coefficients, assemble the rank-2 slice
through a freshly built (axes 1, 2) `CSRAssembler`, and sandwich it with
the axis-1/axis-2 projection matrices (`pb.dot(mx.dot(pc.T))`). -/
def COOTensorIntegrand.project (x : COOTensorIntegrand)
    (pa pb pc : List (List ℚ)) : List (List (List ℚ)) :=
  let ass := mkCSR (x.shape.2.1, x.shape.2.2) x.indices.2.1 x.indices.2.2
  (List.range pa.length).map (fun a =>
    let d := applyCont (pa.getD a []) x.indices.1 x.data
    let mx := ass.call d
    (List.range pb.length).map (fun b =>
      (List.range pc.length).map (fun c =>
        ∑ jj in Finset.range x.shape.2.1, ∑ kk in Finset.range x.shape.2.2,
          entry2 pb b jj * mx.entry jj kk * entry2 pc c kk)))

/-! ## Scipy sparse-matrix operations (`ScipyArrayIntegrand`) -/

/-- Models `self.obj.dot(cb)` for a sparse matrix: per row, the sum over the
stored entries of that row of value times vector coefficient. -/
def spMatVec (sp : SpMat) (c : List ℚ) : List ℚ :=
  (List.range sp.m).map (fun i =>
    (sp.entries.map (fun e => if e.1.1 = i then e.2 * c.getD e.1.2 0 else 0)).sum)

/-- Models `self.obj.T.dot(ca)` for a sparse matrix: per column, the sum over the
stored entries of that column of value times vector coefficient. -/
def spMatTVec (sp : SpMat) (c : List ℚ) : List ℚ :=
  (List.range sp.n).map (fun j =>
    (sp.entries.map (fun e => if e.1.2 = j then e.2 * c.getD e.1.1 0 else 0)).sum)

/-- Models `np.dot` of two dense vectors. -/
def listDot (a b : List ℚ) : ℚ := (List.zipWith (fun x y => x * y) a b).sum

/-- The value a `ScipyArrayIntegrand.get` call can produce. -/
inductive ScipyGetValue where
  | sparse : SpMat → ScipyGetValue
  | vector : List ℚ → ScipyGetValue
  | scalar : ℚ → ScipyGetValue
  deriving DecidableEq, Repr

/-- Models `ScipyArrayIntegrand.get`: the raw matrix for the all-trivial
specification, a matrix-vector product when one operand is trivial, and
the full bilinear reduction `ca.dot(self.obj.dot(cb.T))` when both
operands are vectors. -/
def scipyGet (sp : SpMat) (spec : Spec2) : ScipyGetValue :=
  match spec with
  | (none, none) => .sparse sp
  | (none, some cb) => .vector (spMatVec sp cb)
  | (some ca, none) => .vector (spMatTVec sp ca)
  | (some ca, some cb) => .scalar (listDot ca (spMatVec sp cb))

/-! ## Dense arrays (`NumpyArrayIntegrand`) -/

/-- A dense numpy array of rank 0 to 3, as nested lists. -/
inductive NDArr where
  | r0 : ℚ → NDArr
  | r1 : List ℚ → NDArr
  | r2 : List (List ℚ) → NDArr
  | r3 : List (List (List ℚ)) → NDArr
  deriving DecidableEq, Repr

/-- The result of a dense contraction, by rank. -/
inductive NDRes where
  | scalar : ℚ → NDRes
  | vec : List ℚ → NDRes
  | mat : List (List ℚ) → NDRes
  | t3 : List (List (List ℚ)) → NDRes
  deriving DecidableEq, Repr

/-- Row length of a dense rank-2 array (its second shape component). -/
def rowLen (A : List (List ℚ)) : ℕ := (A.headD []).length

/-- Models `NumpyArrayIntegrand._contract` on a rank-2 array: broadcast each
non-trivial contraction vector along its axis, multiply in, and sum over
the contracted axes (the four cases unroll the loop of the source). -/
def dense2Contract (A : List (List ℚ)) (spec : Spec2) : NDRes :=
  match spec with
  | (none, none) => .mat A
  | (some ca, none) => .vec ((List.range (rowLen A)).map (fun j =>
      ∑ i in Finset.range A.length, ca.getD i 0 * entry2 A i j))
  | (none, some cb) => .vec ((List.range A.length).map (fun i =>
      ∑ j in Finset.range (rowLen A), entry2 A i j * cb.getD j 0))
  | (some ca, some cb) => .scalar
      (∑ i in Finset.range A.length, ∑ j in Finset.range (rowLen A),
        ca.getD i 0 * entry2 A i j * cb.getD j 0)

/-- Numeric entry of a dense rank-3 nested-list array. -/
def entry3 (T : List (List (List ℚ))) (i j k : ℕ) : ℚ :=
  ((T.getD i []).getD j []).getD k 0

/-- Shape of a dense rank-3 nested-list array. -/
def shape3 (T : List (List (List ℚ))) : ℕ × ℕ × ℕ :=
  (T.length, (T.headD []).length, ((T.headD []).headD []).length)

/-- Models `NumpyArrayIntegrand._contract` on a rank-3 array: the eight cases
unroll the loop of the source (multiply in each non-trivial vector,
broadcast along its axis, then sum over the contracted axes). -/
def dense3Contract (T : List (List (List ℚ))) (spec : Spec3) : NDRes :=
  let n0 := T.length
  let n1 := (T.headD []).length
  let n2 := ((T.headD []).headD []).length
  match spec with
  | (none, none, none) => .t3 T
  | (some c0, none, none) => .mat ((List.range n1).map (fun j =>
      (List.range n2).map (fun k =>
        ∑ i in Finset.range n0, c0.getD i 0 * entry3 T i j k)))
  | (none, some c1, none) => .mat ((List.range n0).map (fun i =>
      (List.range n2).map (fun k =>
        ∑ j in Finset.range n1, c1.getD j 0 * entry3 T i j k)))
  | (none, none, some c2) => .mat ((List.range n0).map (fun i =>
      (List.range n1).map (fun j =>
        ∑ k in Finset.range n2, entry3 T i j k * c2.getD k 0)))
  | (some c0, some c1, none) => .vec ((List.range n2).map (fun k =>
      ∑ i in Finset.range n0, ∑ j in Finset.range n1,
        c0.getD i 0 * c1.getD j 0 * entry3 T i j k))
  | (some c0, none, some c2) => .vec ((List.range n1).map (fun j =>
      ∑ i in Finset.range n0, ∑ k in Finset.range n2,
        c0.getD i 0 * entry3 T i j k * c2.getD k 0))
  | (none, some c1, some c2) => .vec ((List.range n0).map (fun i =>
      ∑ j in Finset.range n1, ∑ k in Finset.range n2,
        c1.getD j 0 * entry3 T i j k * c2.getD k 0))
  | (some c0, some c1, some c2) => .scalar
      (∑ i in Finset.range n0, ∑ j in Finset.range n1, ∑ k in Finset.range n2,
        c0.getD i 0 * c1.getD j 0 * entry3 T i j k * c2.getD k 0)

/-! ## The Integrand registry (`Integrand.make` and friends) -/

/-- A concrete Integrand: one of the three registered wrapper variants. -/
inductive Integrand where
  | numpy : NDArr → Integrand
  | scipy : SpMat → Integrand
  | coo : COOTensorIntegrand → Integrand
  deriving DecidableEq, Repr

/-- An arbitrary runtime value offered to `Integrand.make`: a dense numpy
array or scalar, a scipy sparse matrix, an existing Integrand, or any
other object (identified by a plain numeric tag), which no variant accepts. -/
inductive PyValue where
  | arr : NDArr → PyValue
  | sparse : SpMat → PyValue
  | integrand : Integrand → PyValue
  | other : ℕ → PyValue
  deriving DecidableEq, Repr

/-- The registered subclasses of `Integrand`, in registration
(= class definition) order. -/
inductive SubclassTag where
  | thinWrapper : SubclassTag
  | numpyArray : SubclassTag
  | scipyArray : SubclassTag
  | cooTensor : SubclassTag
  deriving DecidableEq, Repr

/-- The `accepts` predicate of each registered subclass:
`NumpyArrayIntegrand` accepts ndarrays and scalars, `ScipyArrayIntegrand`
accepts sparse matrices, and `ThinWrapperIntegrand`/`COOTensorIntegrand`
inherit the default `accepts`, which is always false. -/
def accepts : SubclassTag → PyValue → Bool
  | .numpyArray, .arr _ => true
  | .scipyArray, .sparse _ => true
  | _, _ => false

/-- The registration order of `Integrand.subclasses`. -/
def subclassOrder : List SubclassTag :=
  [.thinWrapper, .numpyArray, .scipyArray, .cooTensor]

/-- Models `Integrand.get_subclass`: the first registered subclass accepting the
value. -/
def getSubclass (v : PyValue) : Option SubclassTag :=
  subclassOrder.find? (fun s => accepts s v)

/-- Whether a value already is an Integrand. -/
def isIntegrandVal : PyValue → Bool
  | .integrand _ => true
  | _ => false

/-- Models `Integrand.acceptable`. -/
def acceptable (v : PyValue) : Bool :=
  isIntegrandVal v || (getSubclass v).isSome

/-- Models `Integrand.make`: an Integrand is returned unchanged; otherwise the
value is wrapped by the accepting subclass's constructor, and
`NotImplementedError` (specification: `UnsupportedRepresentation`) is
raised when no subclass accepts it. -/
def make (v : PyValue) : Except AromaError Integrand :=
  match v with
  | .integrand i => .ok i
  | .arr a => .ok (.numpy a)
  | .sparse sp => .ok (.scipy sp)
  | .other _ => .error .unsupportedRepresentation

/-- The Python value produced by `COOTensorIntegrand._contract`, as fed to
`Integrand.make` by the public `contract`. -/
def ContractValue.toPyValue : ContractValue → PyValue
  | .tensor x => .integrand (.coo x)
  | .scalar q => .arr (.r0 q)
  | .matrix sp => .sparse sp
  | .vector v => .arr (.r1 v)

/-- Models `COOTensorIntegrand.contract`: `Integrand.make(self._contract(...))`. -/
def COOTensorIntegrand.contract (x : COOTensorIntegrand) (spec : Spec3) :
    Except AromaError Integrand :=
  (x.contractRaw spec).bind (fun cv => make cv.toPyValue)

/-- Models `ScipyArrayIntegrand.contract`: unchanged for the all-trivial
specification, a dense matrix-vector product when exactly one operand is a
vector, and `AssertionError` (specification: `InvalidContraction`) when
both operands are vectors. -/
def scipyContract (sp : SpMat) (spec : Spec2) : Except AromaError Integrand :=
  match spec with
  | (none, none) => .ok (.scipy sp)
  | (none, some cb) => .ok (.numpy (.r1 (spMatVec sp cb)))
  | (some ca, none) => .ok (.numpy (.r1 (spMatTVec sp ca)))
  | (some _, some _) => .error .invalidContraction

/-! ## Persistence (`write` / `read`, specification §6) -/

/-- The group written by `CSRAssembler.write` / `VectorAssembler.write`:
the `row` (and, for CSR, `col`) / `order` / `inds` datasets, the `shape`
attribute (a tuple, stored as a list), and the `type` attribute. -/
structure AssemblerGroup where
  typeAttr : String
  rowData : List ℕ
  colData : Option (List ℕ)
  orderData : List ℕ
  indsData : List ℕ
  shapeAttr : List ℕ
  deriving DecidableEq, Repr

/-- Models `CSRAssembler.write` / `VectorAssembler.write`. -/
def Assembler.write : Assembler → AssemblerGroup
  | .csr a =>
      { typeAttr := "CSRAssembler", rowData := a.row, colData := some a.col
        orderData := a.order, indsData := a.inds
        shapeAttr := [a.shape.1, a.shape.2] }
  | .vec a =>
      { typeAttr := "VectorAssembler", rowData := a.row, colData := none
        orderData := a.order, indsData := a.inds, shapeAttr := [a.shape] }

/-- Models `getattr(util, grp.attrs['type']).read(grp)`: dispatch on the `type`
attribute and rebuild the assembler from the stored datasets; `none`
models the `MalformedPersistedState` failure of an unreadable group. -/
def AssemblerGroup.readAss (g : AssemblerGroup) : Option Assembler :=
  if g.typeAttr = "CSRAssembler" then
    match g.colData, g.shapeAttr with
    | some col, [m, n] =>
        some (.csr { shape := (m, n), row := g.rowData, col := col
                     order := g.orderData, inds := g.indsData })
    | _, _ => none
  else if g.typeAttr = "VectorAssembler" then
    match g.shapeAttr with
    | [m] => some (.vec { shape := m, row := g.rowData
                          order := g.orderData, inds := g.indsData })
    | _ => none
  else none

/-- The group written by `COOTensorIntegrand.write`: under `data`, the
three index datasets, the value dataset, the `shape` attribute and the
`assemblers` sub-group (one entry per prebuilt pattern, named by the
pattern); on the group itself, the `type` attribute. -/
structure COOGroup where
  typeAttr : String
  indicesI : List ℕ
  indicesJ : List ℕ
  indicesK : List ℕ
  dataArr : List ℚ
  shapeAttr : List ℕ
  assemblerGroups : List (List ℕ × AssemblerGroup)
  deriving DecidableEq, Repr

/-- Models `COOTensorIntegrand.write`. -/
def COOTensorIntegrand.write (x : COOTensorIntegrand) : COOGroup :=
  { typeAttr := "COOTensorIntegrand"
    indicesI := x.indices.1
    indicesJ := x.indices.2.1
    indicesK := x.indices.2.2
    dataArr := x.data
    shapeAttr := [x.shape.1, x.shape.2.1, x.shape.2.2]
    assemblerGroups := x.assemblers.map (fun e => (e.1, e.2.write)) }

/-- Read back every assembler sub-group, failing when any one of them is
unreadable (the element-wise traversal of the `assemblers` group). -/
def readAssemblers : List (List ℕ × AssemblerGroup) → Option (List (List ℕ × Assembler))
  | [] => some []
  | e :: rest =>
      match e.2.readAss, readAssemblers rest with
      | some a, some l => some ((e.1, a) :: l)
      | _, _ => none

/-- Models `COOTensorIntegrand.read`: rebuild indices, data, shape and the
assembler dictionary from the stored group; `none` models the
`MalformedPersistedState` failure of an unreadable group. -/
def COOGroup.readCOO (g : COOGroup) : Option COOTensorIntegrand :=
  match g.shapeAttr with
  | [s0, s1, s2] =>
      (readAssemblers g.assemblerGroups).map
        (fun asses =>
          { shape := (s0, s1, s2)
            indices := (g.indicesI, g.indicesJ, g.indicesK)
            data := g.dataArr
            assemblers := asses })
  | _ => none

/-- Models `Integrand.read`: dispatch on the group's `type` attribute through the
subclass registry (`util.find_subclass`). -/
def integrandRead (g : COOGroup) : Option Integrand :=
  if g.typeAttr = "COOTensorIntegrand" then (g.readCOO).map (fun x => .coo x)
  else none

/-- The dense vector carried by a dense contraction result (`[]` when the
result is not a vector). -/
def NDRes.toVec : NDRes → List ℚ
  | .vec v => v
  | _ => []

/-- The dense vector carried by a successful contract call that produced a
rank-1 `NumpyArrayIntegrand` (`[]` otherwise). -/
def integrandVec : Except AromaError Integrand → List ℚ
  | .ok (.numpy (.r1 v)) => v
  | _ => []

/-! ## General lemmas about the assembler pipeline -/

theorem maskFilter_cons_true (x : α) (xs : List α) (bs : List Bool) :
    maskFilter (x :: xs) (true :: bs) = x :: maskFilter xs bs := by
  simp [maskFilter]

theorem maskFilter_cons_false (x : α) (xs : List α) (bs : List Bool) :
    maskFilter (x :: xs) (false :: bs) = maskFilter xs bs := by
  simp [maskFilter]

theorem trueIdxs_cons_true (bs : List Bool) :
    trueIdxs (true :: bs) = 0 :: (trueIdxs bs).map (· + 1) := by
  simp [trueIdxs]

theorem trueIdxs_cons_false (bs : List Bool) :
    trueIdxs (false :: bs) = (trueIdxs bs).map (· + 1) := by
  simp [trueIdxs]

/-- Shifting every segment offset by one and prepending an element to the
data leaves a `reduceat` result unchanged. -/
theorem reduceat_shift (x : ℚ) (d : List ℚ) :
    ∀ I : List ℕ, reduceat (x :: d) (I.map (· + 1)) = reduceat d I
  | [] => rfl
  | [i] => by simp [reduceat]
  | i :: j :: rest => by
      have ih := reduceat_shift x d (j :: rest)
      simp only [List.map_cons] at ih ⊢
      simp only [reduceat, List.drop_succ_cons, Nat.succ_sub_succ]
      rw [ih]

/-- Prepending a datum to the first segment of a `reduceat` call adds it
to the first segment sum and leaves the remaining segments unchanged. -/
theorem reduceat_zero_cons (x : ℚ) (d : List ℚ) (I : List ℕ) :
    ∃ s rest, reduceat d (0 :: I) = s :: rest ∧
      reduceat (x :: d) (0 :: I.map (· + 1)) = (x + s) :: rest := by
  cases I with
  | nil => exact ⟨d.sum, [], by simp [reduceat], by simp [reduceat]⟩
  | cons i I2 =>
      refine ⟨(d.take i).sum, reduceat d (i :: I2), by simp [reduceat], ?_⟩
      have hsh : reduceat (x :: d) ((i :: I2).map (· + 1)) = reduceat d (i :: I2) :=
        reduceat_shift x d (i :: I2)
      simp only [List.map_cons] at hsh ⊢
      simp only [reduceat, List.drop_zero, List.take_succ_cons, List.sum_cons,
        Nat.sub_zero]
      rw [hsh]

/-- The mask / `nonzero` / `reduceat` pipeline of the assemblers computes
exactly the adjacent-run collapse of the key/value list. -/
theorem maskReduceat_eq_collapse [DecidableEq α] :
    ∀ L : List (α × ℚ),
    (maskFilter (L.map Prod.fst) (maskList (L.map Prod.fst))).zip
        (reduceat (L.map Prod.snd) (trueIdxs (maskList (L.map Prod.fst))))
      = collapse L := by
  intro L
  induction L with
  | nil => rfl
  | cons hd tl ih =>
    obtain ⟨k, v⟩ := hd
    cases tl with
    | nil => simp [maskList, maskFrom, maskFilter, trueIdxs, reduceat, collapse]
    | cons hd2 tl2 =>
      obtain ⟨k2, v2⟩ := hd2
      by_cases h : k = k2
      · -- duplicate head keys: the first run is extended by `v`
        subst h
        have hdk : (decide (k ≠ k)) = false := by simp
        obtain ⟨s, rest, h1, h2⟩ :=
          reduceat_zero_cons v (v2 :: tl2.map Prod.snd)
            ((trueIdxs (maskFrom k (tl2.map Prod.fst))).map (· + 1))
        simp only [List.map_cons, maskList, maskFrom, hdk, trueIdxs_cons_true,
          trueIdxs_cons_false, maskFilter_cons_true, maskFilter_cons_false] at ih ⊢
        rw [h2]
        rw [h1] at ih
        simp only [List.zip_cons_cons] at ih ⊢
        conv_rhs => rw [collapse]
        rw [← ih]
        simp
      · -- distinct head keys: a fresh run of length one starts at `v`
        have hdk2 : (decide (k2 ≠ k)) = true := decide_eq_true (fun e => h e.symm)
        obtain ⟨s2, r2, hC, _⟩ :=
          reduceat_zero_cons 0 (v2 :: tl2.map Prod.snd)
            ((trueIdxs (maskFrom k2 (tl2.map Prod.fst))).map (· + 1))
        have hone : ((0 : ℕ) :: (trueIdxs (maskFrom k2 (tl2.map Prod.fst))).map (· + 1)).map (· + 1)
            = 1 :: ((trueIdxs (maskFrom k2 (tl2.map Prod.fst))).map (· + 1)).map (· + 1) := by
          simp
        have hsh := reduceat_shift v (v2 :: tl2.map Prod.snd)
          ((0 : ℕ) :: (trueIdxs (maskFrom k2 (tl2.map Prod.fst))).map (· + 1))
        rw [hone] at hsh
        have hred : reduceat (v :: v2 :: tl2.map Prod.snd)
            (0 :: 1 :: ((trueIdxs (maskFrom k2 (tl2.map Prod.fst))).map (· + 1)).map (· + 1))
            = v :: reduceat (v2 :: tl2.map Prod.snd)
                (0 :: (trueIdxs (maskFrom k2 (tl2.map Prod.fst))).map (· + 1)) := by
          rw [reduceat, hsh]
          simp
        simp only [List.map_cons, maskList, maskFrom, hdk2, trueIdxs_cons_true,
          maskFilter_cons_true, List.map_cons] at ih ⊢
        have hone' : ((0 : ℕ) + 1) = 1 := rfl
        rw [hone', hred]
        rw [hC] at ih ⊢
        simp only [List.zip_cons_cons] at ih ⊢
        conv_rhs => rw [collapse]
        rw [← ih]
        simp [h]

theorem insertSorted_perm (le : α → α → Bool) (x : α) (l : List α) :
    (insertSorted le x l).Perm (x :: l) := by
  induction l with
  | nil => exact List.Perm.refl _
  | cons y ys ih =>
    by_cases h : le x y
    · simp [insertSorted, h]
    · simp only [insertSorted, h, if_false]
      exact (ih.cons y).trans (List.Perm.swap x y ys)

theorem sortBy_perm (le : α → α → Bool) (l : List α) : (sortBy le l).Perm l := by
  induction l with
  | nil => exact List.Perm.refl _
  | cons x xs ih =>
    exact (insertSorted_perm le x (sortBy le xs)).trans (ih.cons x)

theorem sumKey_cons [DecidableEq α] (k1 : α) (v : ℚ) (l : List (α × ℚ)) (k : α) :
    sumKey ((k1, v) :: l) k = (if k1 = k then v else 0) + sumKey l k := by
  by_cases h : k1 = k <;> simp [sumKey, List.filter_cons, h]

/-- Collapsing adjacent equal-key runs does not change the total value
stored under any key. -/
theorem sumKey_collapse [DecidableEq α] (L : List (α × ℚ)) (k : α) :
    sumKey (collapse L) k = sumKey L k := by
  induction L with
  | nil => rfl
  | cons hd tl ih =>
    obtain ⟨k1, v⟩ := hd
    cases hc : collapse tl with
    | nil =>
      have hcol : collapse ((k1, v) :: tl) = [(k1, v)] := by
        conv_lhs => rw [collapse]
        rw [hc]
      rw [hcol]
      simp only [sumKey_cons]
      rw [← ih, hc]
    | cons p out =>
      obtain ⟨k2, s⟩ := p
      by_cases h : k1 = k2
      · subst h
        have hcol : collapse ((k1, v) :: tl) = (k1, v + s) :: out := by
          conv_lhs => rw [collapse]
          rw [hc]
          simp
        rw [hcol]
        simp only [sumKey_cons]
        rw [← ih, hc]
        simp only [sumKey_cons]
        by_cases hk : k1 = k <;> simp [hk, add_assoc]
      · have hcol : collapse ((k1, v) :: tl) = (k1, v) :: (k2, s) :: out := by
          conv_lhs => rw [collapse]
          rw [hc]
          simp [h]
        rw [hcol]
        simp only [sumKey_cons]
        rw [← ih, hc]
        simp only [sumKey_cons]

/-- The total value stored under a key is invariant under permutation of
the entry list. -/
theorem sumKey_perm [DecidableEq α] {L L' : List (α × ℚ)} (h : L.Perm L')
    (k : α) : sumKey L k = sumKey L' k :=
  ((h.filter _).map _).sum_eq

/-- Under matching lengths, the zipped triple list coincides with
position-indexed reads over the index range. -/
theorem zip_zip_eq_range_map (row col : List ℕ) (data : List ℚ)
    (hc : col.length = row.length) (hd : data.length = row.length) :
    (row.zip col).zip data = (List.range row.length).map
      (fun p => ((row.getD p 0, col.getD p 0), data.getD p 0)) := by
  apply List.ext_getElem
  · simp [hc, hd]
  · intro p h1 h2
    have hp : p < row.length := by simp [hc, hd] at h1; omega
    simp only [List.getElem_zip, List.getElem_map, List.getElem_range]
    rw [List.getD_eq_getElem row 0 hp, List.getD_eq_getElem col 0 (by omega),
      List.getD_eq_getElem data 0 (by omega)]

/-- Correctness of the CSR assembly pipeline: the entry of the assembled
matrix at (r, c) is the sum of the data values of every raw (row, col)
pair equal to (r, c) — duplicates merge by summation. -/
theorem mkCSR_call_entry (shape : ℕ × ℕ) (row col : List ℕ) (data : List ℚ)
    (hc : col.length = row.length) (hd : data.length = row.length) (r c : ℕ) :
    ((mkCSR shape row col).call data).entry r c
      = sumKey ((row.zip col).zip data) (r, c) := by
  set ord := sortBy
    (fun p q => lexColRow (row.getD p 0, col.getD p 0) (row.getD q 0, col.getD q 0))
    (List.range row.length) with hord
  set F : ℕ → ((ℕ × ℕ) × ℚ) :=
    fun p => ((row.getD p 0, col.getD p 0), data.getD p 0) with hF
  have hkeys : (ord.map (fun p => row.getD p 0)).zip (ord.map (fun p => col.getD p 0))
      = (ord.map F).map Prod.fst := by
    rw [List.zip_map']
    simp [hF, List.map_map, Function.comp]
  have hvals : ord.map (fun p => data.getD p 0) = (ord.map F).map Prod.snd := by
    simp [hF, List.map_map, Function.comp]
  have hzipmap :
      ((maskFilter ((ord.map F).map Prod.fst) (maskList ((ord.map F).map Prod.fst))).map
            (fun e => e.1)).zip
          ((maskFilter ((ord.map F).map Prod.fst) (maskList ((ord.map F).map Prod.fst))).map
            (fun e => e.2))
        = maskFilter ((ord.map F).map Prod.fst) (maskList ((ord.map F).map Prod.fst)) := by
    rw [List.zip_map']
    simp
  have hentries : ((mkCSR shape row col).call data).entries
      = (maskFilter ((ord.map F).map Prod.fst)
            (maskList ((ord.map F).map Prod.fst))).zip
          (reduceat ((ord.map F).map Prod.snd)
            (trueIdxs (maskList ((ord.map F).map Prod.fst)))) := by
    simp only [mkCSR, CSRAssembler.call]
    rw [← hord, hkeys, hvals, hzipmap]
  rw [SpMat.entry, hentries, maskReduceat_eq_collapse, sumKey_collapse]
  have hperm : (ord.map F).Perm ((List.range row.length).map F) :=
    (sortBy_perm _ _).map F
  rw [sumKey_perm hperm, zip_zip_eq_range_map row col data hc hd]

/-! ## Sum-exchange lemmas for sparse / dense comparison -/

theorem getD_range_map (N : ℕ) (g : ℕ → ℚ) (j : ℕ) (hj : j < N) :
    (((List.range N).map g).getD j 0) = g j := by
  rw [List.getD_eq_getElem _ 0 (by simpa using hj)]
  simp

/-- Models `np.dot` of a vector with a vector materialised over an index range. -/
theorem listDot_range_map (a : List ℚ) (g : ℕ → ℚ) :
    listDot a ((List.range a.length).map g)
      = ∑ i in Finset.range a.length, a.getD i 0 * g i := by
  induction a generalizing g with
  | nil => simp [listDot]
  | cons x xs ih =>
    have hr : List.range (xs.length + 1) = 0 :: (List.range xs.length).map Nat.succ :=
      List.range_succ_eq_map xs.length
    simp only [List.length_cons, hr, List.map_cons, List.map_map]
    rw [listDot, List.zipWith_cons_cons, List.sum_cons]
    have hx := ih (g := fun i => g (i + 1))
    rw [listDot] at hx
    have hmap : (List.range xs.length).map (g ∘ Nat.succ)
        = (List.range xs.length).map (fun i => g (i + 1)) := by
      simp [Function.comp]
    rw [hmap, hx, Finset.sum_range_succ']
    simp [add_comm]

/-- Exchanging a row-indexed sum with the entry-list sum of a sparse
matrix, at a fixed column.  Needs every stored row index in range. -/
theorem sum_rows_sumKey (es : List ((ℕ × ℕ) × ℚ)) (M : ℕ) (f : ℕ → ℚ) (j : ℕ)
    (hwf : ∀ e ∈ es, e.1.1 < M) :
    ∑ i in Finset.range M, f i * sumKey es (i, j)
      = (es.map (fun e => if e.1.2 = j then e.2 * f e.1.1 else 0)).sum := by
  induction es with
  | nil => simp [sumKey]
  | cons e es ih =>
    obtain ⟨⟨p1, p2⟩, v⟩ := e
    have hp : p1 < M := hwf _ (List.mem_cons_self _ _)
    have ihs := ih (fun e he => hwf e (List.mem_cons_of_mem _ he))
    simp only [List.map_cons, List.sum_cons]
    have hexp : ∀ i, f i * sumKey (((p1, p2), v) :: es) (i, j)
        = (if p1 = i ∧ p2 = j then f i * v else 0) + f i * sumKey es (i, j) := by
      intro i
      rw [sumKey_cons]
      by_cases h1 : (p1, p2) = (i, j)
      · obtain ⟨e1, e2⟩ := Prod.mk.injEq .. ▸ h1
        simp [h1, e1, e2, mul_add, mul_comm]
      · have : ¬(p1 = i ∧ p2 = j) := by
          intro ⟨a1, a2⟩; exact h1 (by rw [a1, a2])
        simp [h1, this]
    rw [Finset.sum_congr rfl (fun i _ => hexp i), Finset.sum_add_distrib, ihs]
    congr 1
    by_cases hj : p2 = j
    · subst hj
      simp only [and_true, if_pos rfl]
      have : ∀ i, (if p1 = i then f i * v else 0) = if p1 = i then f p1 * v else 0 := by
        intro i
        by_cases h : p1 = i <;> simp [h]
      rw [Finset.sum_congr rfl (fun i _ => this i),
        Finset.sum_ite_eq (Finset.range M) p1 (fun _ => f p1 * v)]
      simp [Finset.mem_range.mpr hp, mul_comm]
    · simp [hj]
/-- Exchanging a column-indexed sum with the entry-list sum of a sparse
matrix, at a fixed row.  Needs every stored column index in range. -/
theorem sum_cols_sumKey (es : List ((ℕ × ℕ) × ℚ)) (N : ℕ) (f : ℕ → ℚ) (i : ℕ)
    (hwf : ∀ e ∈ es, e.1.2 < N) :
    ∑ j in Finset.range N, sumKey es (i, j) * f j
      = (es.map (fun e => if e.1.1 = i then e.2 * f e.1.2 else 0)).sum := by
  induction es with
  | nil => simp [sumKey]
  | cons e es ih =>
    obtain ⟨⟨p1, p2⟩, v⟩ := e
    have hp : p2 < N := hwf _ (List.mem_cons_self _ _)
    have ihs := ih (fun e he => hwf e (List.mem_cons_of_mem _ he))
    simp only [List.map_cons, List.sum_cons]
    have hexp : ∀ j, sumKey (((p1, p2), v) :: es) (i, j) * f j
        = (if p1 = i ∧ p2 = j then v * f j else 0) + sumKey es (i, j) * f j := by
      intro j
      rw [sumKey_cons]
      by_cases h1 : (p1, p2) = (i, j)
      · obtain ⟨e1, e2⟩ := Prod.mk.injEq .. ▸ h1
        simp [h1, e1, e2, add_mul]
      · have : ¬(p1 = i ∧ p2 = j) := by
          intro ⟨a1, a2⟩; exact h1 (by rw [a1, a2])
        simp [h1, this]
    rw [Finset.sum_congr rfl (fun j _ => hexp j), Finset.sum_add_distrib, ihs]
    congr 1
    by_cases hi : p1 = i
    · subst hi
      simp only [true_and, if_pos rfl]
      have : ∀ j, (if p2 = j then v * f j else 0) = if p2 = j then v * f p2 else 0 := by
        intro j
        by_cases h : p2 = j <;> simp [h]
      rw [Finset.sum_congr rfl (fun j _ => this j),
        Finset.sum_ite_eq (Finset.range N) p2 (fun _ => v * f p2)]
      simp [Finset.mem_range.mpr hp]
    · simp [hi]

/-! ## Claim theorems -/

/-- C1: the COOTensorIntegrand of shape (2,2,2) built from indices
i=[0,0,1], j=[0,0,1], k=[0,0,1] and values [1.0,2.0,3.0], contracted over
axes 1 and 2 with the vectors [1,1] and [1,1], yields the vector
[3.0, 3.0]; contracted over axis 2 alone with [1,0] it yields the 2x2
matrix whose entry (0,0) is 3.0 and entry (1,1) is 0.0, with the
remaining entries (0,1) and (1,0) zero. -/
theorem C1_cooTensor_end_to_end :
    (mkCOO (2,2,2) [0,0,1] [0,0,1] [0,0,1] [1,2,3]).contractRaw
        (none, some [1,1], some [1,1]) = .ok (.vector [3,3])
    ∧ (mkCOO (2,2,2) [0,0,1] [0,0,1] [0,0,1] [1,2,3]).contractRaw
        (none, none, some [1,0]) = .ok (.matrix ⟨2, 2, [((0,0),3),((1,1),0)]⟩)
    ∧ (SpMat.mk 2 2 [((0,0),3),((1,1),0)]).entry 0 0 = 3
    ∧ (SpMat.mk 2 2 [((0,0),3),((1,1),0)]).entry 1 1 = 0
    ∧ (SpMat.mk 2 2 [((0,0),3),((1,1),0)]).entry 0 1 = 0
    ∧ (SpMat.mk 2 2 [((0,0),3),((1,1),0)]).entry 1 0 = 0 := by
  refine ⟨?_, ?_, ?_, ?_, rfl, rfl⟩ <;>
    norm_num [mkCOO, COOTensorIntegrand.contractRaw, applyCont, mkCSR, mkVec,
      sortBy, insertSorted, lexColRow, maskList, maskFrom, trueIdxs, maskFilter,
      reduceat, CSRAssembler.call, VectorAssembler.call, sumKey, cooAxes,
      List.filter, SpMat.entry, List.range_succ]

/-- C2: the CSRAssembler built from rows [0,0,1], cols [2,2,3] applied to
data [1.0,2.0,5.0] yields entry (0,2) = 3.0 and entry (1,3) = 5.0; in
general every set of raw entries with identical (row, column) coordinates
is merged by summation, and the assembled entries do not depend on the
order of the raw (row, column, value) triples. -/
theorem C2_csr_duplicate_summation (shape : ℕ × ℕ) (row col : List ℕ)
    (data : List ℚ) (hc : col.length = row.length) (hd : data.length = row.length)
    (row' col' : List ℕ) (data' : List ℚ)
    (hc' : col'.length = row'.length) (hd' : data'.length = row'.length)
    (hperm : ((row.zip col).zip data).Perm ((row'.zip col').zip data'))
    (r c : ℕ) :
    ((mkCSR (2, 4) [0, 0, 1] [2, 2, 3]).call [1, 2, 5]).entry 0 2 = 3
    ∧ ((mkCSR (2, 4) [0, 0, 1] [2, 2, 3]).call [1, 2, 5]).entry 1 3 = 5
    ∧ ((mkCSR shape row col).call data).entry r c
        = sumKey ((row.zip col).zip data) (r, c)
    ∧ ((mkCSR shape row col).call data).entry r c
        = ((mkCSR shape row' col').call data').entry r c := by
  refine ⟨?_, ?_, mkCSR_call_entry shape row col data hc hd r c, ?_⟩
  · norm_num [mkCSR, sortBy, insertSorted, lexColRow, maskList, maskFrom,
      trueIdxs, maskFilter, reduceat, CSRAssembler.call, sumKey, List.filter,
      SpMat.entry, List.range_succ]
  · norm_num [mkCSR, sortBy, insertSorted, lexColRow, maskList, maskFrom,
      trueIdxs, maskFilter, reduceat, CSRAssembler.call, sumKey, List.filter,
      SpMat.entry, List.range_succ]
  · rw [mkCSR_call_entry shape row col data hc hd r c,
      mkCSR_call_entry shape row' col' data' hc' hd' r c,
      sumKey_perm hperm]

/-- Witness for C2 at the concrete assembler of the claim, with the
duplicate pair given in swapped order. -/
theorem C2_csr_duplicate_summation_witness :
    ((mkCSR (2, 4) [0, 0, 1] [2, 2, 3]).call [1, 2, 5]).entry 0 2 = 3
    ∧ ((mkCSR (2, 4) [0, 0, 1] [2, 2, 3]).call [1, 2, 5]).entry 1 3 = 5
    ∧ ((mkCSR (2, 4) [0, 0, 1] [2, 2, 3]).call [1, 2, 5]).entry 0 2
        = sumKey (([0, 0, 1].zip [2, 2, 3]).zip [1, 2, 5]) (0, 2)
    ∧ ((mkCSR (2, 4) [0, 0, 1] [2, 2, 3]).call [1, 2, 5]).entry 0 2
        = ((mkCSR (2, 4) [0, 0, 1] [2, 2, 3]).call [2, 1, 5]).entry 0 2 :=
  C2_csr_duplicate_summation (2, 4) [0, 0, 1] [2, 2, 3] [1, 2, 5] rfl rfl
    [0, 0, 1] [2, 2, 3] [2, 1, 5] rfl rfl (List.Perm.swap _ _ _) 0 2

/-- C5: for a constructed COOTensorIntegrand, contracting the axis sets
{0}, {0,1} and {0,2} fails with the KeyError-class fatal error (no
assembler is prebuilt for those patterns), while the sets {1}, {2} and
{1,2} succeed; axis 0 is never eliminable in isolation. -/
theorem C5_coo_axis_patterns (shape : ℕ × ℕ × ℕ) (i j k : List ℕ)
    (vals : List ℚ) (c0 c1 c2 : List ℚ) :
    (mkCOO shape i j k vals).contractRaw (some c0, none, none)
        = .error (.keyError [0])
    ∧ (mkCOO shape i j k vals).contractRaw (some c0, some c1, none)
        = .error (.keyError [0, 1])
    ∧ (mkCOO shape i j k vals).contractRaw (some c0, none, some c2)
        = .error (.keyError [0, 2])
    ∧ ((mkCOO shape i j k vals).contractRaw (none, some c1, none)).isOk = true
    ∧ ((mkCOO shape i j k vals).contractRaw (none, none, some c2)).isOk = true
    ∧ ((mkCOO shape i j k vals).contractRaw (none, some c1, some c2)).isOk = true :=
  ⟨rfl, rfl, rfl, rfl, rfl, rfl⟩

/-- C6: contracting both axes of a ScipyArrayIntegrand simultaneously
fails with the error the specification names InvalidContraction, for
every sparse matrix and every pair of contraction vectors. -/
theorem C6_scipy_contract_two_vectors (sp : SpMat) (ca cb : List ℚ) :
    scipyContract sp (some ca, some cb) = .error .invalidContraction := rfl

/-- C7: a value that is not an Integrand and is accepted by no registered
variant makes `Integrand.make` fail with UnsupportedRepresentation, and
`acceptable` returns false on it. -/
theorem C7_make_unsupported (v : PyValue)
    (hni : isIntegrandVal v = false) (hns : getSubclass v = none) :
    make v = .error .unsupportedRepresentation ∧ acceptable v = false := by
  cases v with
  | arr a => exact absurd hns (by simp [getSubclass, subclassOrder, accepts])
  | sparse m => exact absurd hns (by simp [getSubclass, subclassOrder, accepts])
  | integrand i => simp [isIntegrandVal] at hni
  | other t => exact ⟨rfl, by simp [acceptable, isIntegrandVal, hns]⟩

/-- Witness for C7 at a concrete non-numeric value. -/
theorem C7_make_unsupported_witness :
    make (.other 0) = .error .unsupportedRepresentation
    ∧ acceptable (.other 0) = false :=
  C7_make_unsupported (.other 0) rfl rfl

theorem npMax_append (a b : List ℕ) : npMax (a ++ b) = max (npMax a) (npMax b) := by
  induction a with
  | nil => simp [npMax]
  | cons x xs ih =>
    show max x (npMax (xs ++ b)) = max (max x (npMax xs)) (npMax b)
    rw [ih, Nat.max_assoc]

/-- C8 counterexample: at the construction of the end-to-end example the
code chooses a 32-bit index dtype, while the smallest signed integer type
fitting the maximum coordinate 1 is 8-bit — so the stored dtype is not
the smallest signed integer type fitting the maximum coordinate. -/
theorem C8_counterexample_smallest_width :
    cooIdxDtype [0,0,1] [0,0,1] [0,0,1] [1,2,3] = 32
    ∧ smallestSignedWidthSpec (cooMaxCoord [0,0,1] [0,0,1] [0,0,1] [1,2,3]) = 8
    ∧ cooIdxDtype [0,0,1] [0,0,1] [0,0,1] [1,2,3]
        ≠ smallestSignedWidthSpec (cooMaxCoord [0,0,1] [0,0,1] [0,0,1] [1,2,3]) := by
  have h1 : cooIdxDtype [0,0,1] [0,0,1] [0,0,1] [1,2,3] = 32 := by
    norm_num [cooIdxDtype, npMax, List.filter]
  have h2 : smallestSignedWidthSpec (cooMaxCoord [0,0,1] [0,0,1] [0,0,1] [1,2,3]) = 8 := by
    norm_num [smallestSignedWidthSpec, cooMaxCoord, npMax, List.filter]
  exact ⟨h1, h2, by rw [h1, h2]; decide⟩

/-- C8 amended: the index dtype chosen at COOTensorIntegrand construction
is the 32-bit signed integer type whenever the maximum stored coordinate
fits `np.iinfo(np.int32).max`, and the 64-bit type otherwise — the
smaller 8- and 16-bit signed types are never selected. -/
theorem C8_amended_idx_dtype (i j k : List ℕ) (vals : List ℚ) :
    (cooMaxCoord i j k vals ≤ 2 ^ 31 - 1 → cooIdxDtype i j k vals = 32)
    ∧ (2 ^ 31 - 1 < cooMaxCoord i j k vals → cooIdxDtype i j k vals = 64) := by
  simp only [cooMaxCoord, cooIdxDtype, npMax_append]
  constructor
  · intro h
    rw [if_pos]
    obtain ⟨h12, h3⟩ := Nat.max_le.mp h
    obtain ⟨h1, h2⟩ := Nat.max_le.mp h12
    exact ⟨h1, h2, h3⟩
  · intro h
    rw [if_neg]
    intro ⟨h1, h2, h3⟩
    have := Nat.max_le.mpr ⟨Nat.max_le.mpr ⟨h1, h2⟩, h3⟩
    omega

/-- Witness for C8 amended: a small-coordinate construction gets the
32-bit dtype, one with a coordinate beyond the int32 range gets 64. -/
theorem C8_amended_idx_dtype_witness :
    cooIdxDtype [0,0,1] [0,0,1] [0,0,1] [1,2,3] = 32
    ∧ cooIdxDtype [2 ^ 31] [0] [0] [1] = 64 :=
  ⟨(C8_amended_idx_dtype [0,0,1] [0,0,1] [0,0,1] [1,2,3]).1
      (by norm_num [cooMaxCoord, npMax, List.filter]),
   (C8_amended_idx_dtype [2 ^ 31] [0] [0] [1]).2
      (by norm_num [cooMaxCoord, npMax, List.filter])⟩

/-- C9: contracting with the all-no-op specification returns a tensor
equal to the original for a dense rank-3 array, and for a
COOTensorIntegrand both `_contract` and the public `contract` return the
receiver itself unchanged. -/
theorem C9_all_trivial_contract (T : List (List (List ℚ)))
    (x : COOTensorIntegrand) :
    dense3Contract T (none, none, none) = .t3 T
    ∧ x.contractRaw (none, none, none) = .ok (.tensor x)
    ∧ x.contract (none, none, none) = .ok (.coo x) :=
  ⟨rfl, rfl, rfl⟩

/-- C10: `ScipyArrayIntegrand.get` with two non-trivial vectors does not
fail but returns the scalar bilinear reduction of the matrix by the two
vectors, even though `contract` rejects the same specification. -/
theorem C10_scipy_get_bilinear (sp : SpMat) (ca cb : List ℚ)
    (hca : ca.length = sp.m)
    (hwf : ∀ e ∈ sp.entries, e.1.1 < sp.m ∧ e.1.2 < sp.n) :
    scipyGet sp (some ca, some cb)
      = .scalar (∑ i in Finset.range sp.m, ∑ j in Finset.range sp.n,
          ca.getD i 0 * sp.entry i j * cb.getD j 0)
    ∧ scipyContract sp (some ca, some cb) = .error .invalidContraction := by
  refine ⟨?_, rfl⟩
  show ScipyGetValue.scalar (listDot ca (spMatVec sp cb)) = _
  congr 1
  rw [spMatVec, ← hca, listDot_range_map, hca]
  apply Finset.sum_congr rfl
  intro i _
  have hg := sum_cols_sumKey sp.entries sp.n (fun j => cb.getD j 0) i
    (fun e he => (hwf e he).2)
  rw [← hg, Finset.mul_sum]
  exact Finset.sum_congr rfl (fun j _ => by rw [SpMat.entry]; ring)

/-- Witness for C10 at a concrete 1x2 sparse matrix and vector pair. -/
theorem C10_scipy_get_bilinear_witness :
    scipyGet ⟨1, 2, [((0,0),3),((0,1),4)]⟩ (some [2], some [5,7])
      = .scalar (∑ i in Finset.range 1, ∑ j in Finset.range 2,
          ([2] : List ℚ).getD i 0
            * (SpMat.mk 1 2 [((0,0),3),((0,1),4)]).entry i j
            * ([5,7] : List ℚ).getD j 0)
    ∧ scipyContract ⟨1, 2, [((0,0),3),((0,1),4)]⟩ (some [2], some [5,7])
      = .error .invalidContraction :=
  C10_scipy_get_bilinear ⟨1, 2, [((0,0),3),((0,1),4)]⟩ [2] [5,7] rfl (by decide)

theorem assembler_write_read (a : Assembler) : a.write.readAss = some a := by
  cases a with
  | csr c => rfl
  | vec v => rfl

theorem assemblers_roundtrip (l : List (List ℕ × Assembler)) :
    readAssemblers (l.map (fun e => (e.1, e.2.write))) = some l := by
  induction l with
  | nil => rfl
  | cons e l ih =>
    obtain ⟨key, a⟩ := e
    simp only [List.map_cons, readAssemblers, assembler_write_read, ih]

/-- C4: reading back the group written by a COOTensorIntegrand
reconstructs the integrand exactly — the written group carries the
`COOTensorIntegrand` type attribute (so registry dispatch restores the
same concrete type), and the read-back object returns equal results for
`get`, `contract` and `project` on every argument. -/
theorem C4_coo_write_read_roundtrip (x : COOTensorIntegrand) :
    x.write.readCOO = some x
    ∧ x.write.typeAttr = "COOTensorIntegrand"
    ∧ integrandRead x.write = some (.coo x)
    ∧ ∀ y, x.write.readCOO = some y →
        (∀ spec : Spec3, y.contractRaw spec = x.contractRaw spec)
        ∧ (∀ spec : Spec3, y.get spec = x.get spec)
        ∧ (∀ spec : Spec3, y.contract spec = x.contract spec)
        ∧ (∀ pa pb pc, y.project pa pb pc = x.project pa pb pc) := by
  have hrt : x.write.readCOO = some x := by
    obtain ⟨⟨s0, s1, s2⟩, ⟨i1, i2, i3⟩, d, asses⟩ := x
    simp only [COOTensorIntegrand.write, COOGroup.readCOO, assemblers_roundtrip,
      Option.map_some']
  refine ⟨hrt, rfl, ?_, ?_⟩
  · rw [integrandRead,
      if_pos (show x.write.typeAttr = "COOTensorIntegrand" from rfl), hrt]
    rfl
  · intro y hy
    rw [hrt] at hy
    obtain rfl : x = y := Option.some.inj hy
    exact ⟨fun _ => rfl, fun _ => rfl, fun _ => rfl, fun _ _ _ => rfl⟩

/-- Witness for C4 at the end-to-end example tensor. -/
theorem C4_coo_write_read_roundtrip_witness :
    ((mkCOO (2,2,2) [0,0,1] [0,0,1] [0,0,1] [1,2,3]).write.readCOO
        = some (mkCOO (2,2,2) [0,0,1] [0,0,1] [0,0,1] [1,2,3]))
    ∧ (mkCOO (2,2,2) [0,0,1] [0,0,1] [0,0,1] [1,2,3]).contractRaw
          (none, some [1,1], some [1,1])
        = (mkCOO (2,2,2) [0,0,1] [0,0,1] [0,0,1] [1,2,3]).contractRaw
          (none, some [1,1], some [1,1]) :=
  ⟨(C4_coo_write_read_roundtrip (mkCOO (2,2,2) [0,0,1] [0,0,1] [0,0,1] [1,2,3])).1,
   ((C4_coo_write_read_roundtrip
        (mkCOO (2,2,2) [0,0,1] [0,0,1] [0,0,1] [1,2,3])).2.2.2
      (mkCOO (2,2,2) [0,0,1] [0,0,1] [0,0,1] [1,2,3]) rfl).1
      (none, some [1,1], some [1,1])⟩

/-- C3 counterexample: for the 1x1 matrix with single entry 1.0 and the
contraction specification with two non-trivial vectors [1], the sparse
wrapper's `contract` fails with InvalidContraction and produces no value,
while the dense wrapper's `contract` yields the scalar 1.0 — so the
results are not equal for every contraction specification. -/
theorem C3_counterexample_two_vector_spec :
    scipyContract ⟨1, 1, [((0,0),1)]⟩ (some [1], some [1])
        = .error .invalidContraction
    ∧ (¬ ∃ v : Integrand,
        scipyContract ⟨1, 1, [((0,0),1)]⟩ (some [1], some [1]) = .ok v)
    ∧ dense2Contract [[1]] (some [1], some [1]) = .scalar 1 := by
  refine ⟨rfl, ?_, ?_⟩
  · rintro ⟨v, hv⟩
    simp [scipyContract] at hv
  · norm_num [dense2Contract, rowLen, entry2, Finset.sum_range_one]

/-- C3 amended: for a rank-2 tensor held both as a dense array and as a
sparse matrix with the same entries, every contraction specification with
at most one non-trivial operand produces numerically identical results
through the dense and the sparse wrappers (the two-vector specification
is rejected by the sparse wrapper, see the counterexample). -/
theorem C3_amended_dense_sparse_equiv (sp : SpMat) (A : List (List ℚ))
    (hm : A.length = sp.m)
    (hrect : ∀ r ∈ A, r.length = sp.n)
    (hwf : ∀ e ∈ sp.entries, e.1.1 < sp.m ∧ e.1.2 < sp.n)
    (hent : ∀ i, i < sp.m → ∀ j, j < sp.n → entry2 A i j = sp.entry i j)
    (ca cb : List ℚ) :
    (scipyContract sp (none, none) = .ok (.scipy sp)
      ∧ dense2Contract A (none, none) = .mat A)
    ∧ (∀ j, j < sp.n →
        ((dense2Contract A (some ca, none)).toVec).getD j 0
          = (integrandVec (scipyContract sp (some ca, none))).getD j 0)
    ∧ (∀ i, i < sp.m →
        ((dense2Contract A (none, some cb)).toVec).getD i 0
          = (integrandVec (scipyContract sp (none, some cb))).getD i 0) := by
  refine ⟨⟨rfl, rfl⟩, ?_, ?_⟩
  · intro j hj
    show ((List.range (rowLen A)).map (fun j =>
        ∑ i in Finset.range A.length, ca.getD i 0 * entry2 A i j)).getD j 0
      = (spMatTVec sp ca).getD j 0
    rw [spMatTVec, getD_range_map sp.n _ j hj]
    cases A with
    | nil =>
      have hes : sp.entries = [] := by
        cases hesc : sp.entries with
        | nil => rfl
        | cons e es =>
          have h1 := (hwf e (by rw [hesc]; exact List.mem_cons_self _ _)).1
          have h0 : sp.m = 0 := by simpa using hm.symm
          omega
      simp [rowLen, hes]
    | cons r rs =>
      have hn : rowLen (r :: rs) = sp.n := hrect r (List.mem_cons_self _ _)
      rw [getD_range_map _ _ j (by omega)]
      calc ∑ i in Finset.range (r :: rs).length,
            ca.getD i 0 * entry2 (r :: rs) i j
          = ∑ i in Finset.range sp.m, ca.getD i 0 * sumKey sp.entries (i, j) := by
            rw [hm]
            refine Finset.sum_congr rfl (fun i hi => ?_)
            rw [hent i (Finset.mem_range.mp hi) j hj, SpMat.entry]
        _ = _ := sum_rows_sumKey sp.entries sp.m _ j (fun e he => (hwf e he).1)
  · intro i hi
    show ((List.range A.length).map (fun i =>
        ∑ j in Finset.range (rowLen A), entry2 A i j * cb.getD j 0)).getD i 0
      = (spMatVec sp cb).getD i 0
    rw [spMatVec, getD_range_map sp.m _ i hi]
    cases A with
    | nil =>
      have h0 : sp.m = 0 := by simpa using hm.symm
      omega
    | cons r rs =>
      have hn : rowLen (r :: rs) = sp.n := hrect r (List.mem_cons_self _ _)
      rw [getD_range_map _ _ i (by omega)]
      calc ∑ j in Finset.range (rowLen (r :: rs)),
            entry2 (r :: rs) i j * cb.getD j 0
          = ∑ j in Finset.range sp.n, sumKey sp.entries (i, j) * cb.getD j 0 := by
            rw [hn]
            refine Finset.sum_congr rfl (fun j hj => ?_)
            rw [hent i (by omega) j (Finset.mem_range.mp hj), SpMat.entry]
        _ = _ := sum_cols_sumKey sp.entries sp.n _ i (fun e he => (hwf e he).2)

/-- Witness for C3 amended at a concrete 2x2 pair of representations. -/
theorem C3_amended_dense_sparse_equiv_witness :
    ((dense2Contract [[1,2],[0,4]] (some [1,1], none)).toVec).getD 1 0
      = (integrandVec (scipyContract ⟨2, 2, [((0,0),1),((0,1),2),((1,1),4)]⟩
          (some [1,1], none))).getD 1 0 :=
  ((C3_amended_dense_sparse_equiv ⟨2, 2, [((0,0),1),((0,1),2),((1,1),4)]⟩
      [[1,2],[0,4]] rfl
      (by simp [List.forall_mem_cons])
      (by simp [List.forall_mem_cons])
      (by intro i hi j hj
          interval_cases i <;> interval_cases j <;>
            norm_num [entry2, SpMat.entry, sumKey, List.filter_cons, Prod.ext_iff])
      [1,1] [1,1]).2.1) 1 (by norm_num)
